import Mathlib

/-!
Verification development for `fairseq/modules/character_token_embedder.py`
(class `CharacterTokenEmbedder`).

Tensors are shallowly embedded as lists: a vector is `List ℤ`, a matrix is
`List (List ℤ)`, integer index tensors are `List Nat` / `List (List Nat)`.
Operations that can raise at runtime in the source (embedding lookups with an
out-of-range index, convolutions whose kernel is wider than the input,
fancy-indexing with out-of-range ids) are `Option`-valued; an elementwise
vectorized operation fails as a whole when any element is invalid, which is
modelled by `mapO`.

The raw-character branch of `forward` mutates its input tensor in place
(`chars` is a view of `input` and `chars[eos] = 0` writes through it); this is
modelled by `forwardChars` returning, next to the result, the contents of the
caller's input tensor after the call.
-/

namespace CharTokenEmbed

/-- `mapO f l` maps the fallible elementwise operation `f` over `l`, failing
as a whole when `f` fails on any element.  This models a vectorized torch
operation (an embedding lookup, a gather) that raises when any index is
invalid. -/
def mapO (f : α → Option β) : List α → Option (List β)
  | [] => some []
  | a :: as =>
    match f a with
    | none => none
    | some b =>
      match mapO f as with
      | none => none
      | some bs => some (b :: bs)

theorem mapO_length {f : α → Option β} :
    ∀ {l : List α} {l' : List β}, mapO f l = some l' → l'.length = l.length := by
  intro l
  induction l with
  | nil => intro l' h; simp [mapO] at h; simp [← h]
  | cons a as ih =>
    intro l' h
    simp only [mapO] at h
    cases hfa : f a with
    | none => rw [hfa] at h; simp at h
    | some b =>
      rw [hfa] at h
      cases hrest : mapO f as with
      | none => rw [hrest] at h; simp at h
      | some bs =>
        rw [hrest] at h
        simp at h
        subst h
        simp [ih hrest]

theorem mapO_get? {f : α → Option β} :
    ∀ {l : List α} {l' : List β}, mapO f l = some l' →
    ∀ {j : Nat} {a : α}, l[j]? = some a →
      ∃ b, f a = some b ∧ l'[j]? = some b := by
  intro l
  induction l with
  | nil => intro l' _ j a ha; simp at ha
  | cons x xs ih =>
    intro l' h j a ha
    simp only [mapO] at h
    cases hfx : f x with
    | none => rw [hfx] at h; simp at h
    | some b =>
      rw [hfx] at h
      cases hrest : mapO f xs with
      | none => rw [hrest] at h; simp at h
      | some bs =>
        rw [hrest] at h
        simp at h
        subst h
        cases j with
        | zero =>
          simp at ha
          subst ha
          exact ⟨b, hfx, by simp⟩
        | succ j' =>
          simp at ha
          obtain ⟨c, hc, hc'⟩ := ih hrest ha
          exact ⟨c, hc, by simpa using hc'⟩

theorem mapO_none {f : α → Option β} {a : α} :
    ∀ {l : List α}, a ∈ l → f a = none → mapO f l = none := by
  intro l
  induction l with
  | nil => intro h; simp at h
  | cons x xs ih =>
    intro hmem hfa
    simp only [mapO]
    rcases List.mem_cons.mp hmem with h | h
    · subst h; rw [hfa]
    · cases hfx : f x with
      | none => rfl
      | some b =>
        rw [ih h hfa]

/-! ## The vocabulary and the character index table (`set_vocab`) -/

/-- The external `Dictionary`, as the component sees it: a size, the byte
sequence of each entry's text (`vocab[i].encode()`), the count `nspecial` of
reserved low indices, and the reserved `pad`/`eos`/`unk` indices. -/
structure Vocab where
  tokens : List (List Nat)
  nspecial : Nat
  padIdx : Nat
  eosIdx : Nat
  unkIdx : Nat

/-- The `char_idxs` list built inside the `set_vocab` loop, before the
truncation check: all-zero for a special index, otherwise the byte codes each
incremented by one, right-padded with zeros up to `max_char_len` (a Python
list multiplied by a negative count is empty, matching `Nat` subtraction). -/
def char_idxs_raw (vocab : Vocab) (max_char_len i : Nat) : List Nat :=
  if i < vocab.nspecial then
    List.replicate max_char_len 0
  else
    let chars := vocab.tokens.getD i []
    chars.map (· + 1) ++ List.replicate (max_char_len - chars.length) 0

/-- One row of the character index table: the loop body of `set_vocab`,
truncating `char_idxs` to `max_char_len` entries when it is longer. -/
def charRow (vocab : Vocab) (max_char_len i : Nat) : List Nat :=
  let c := char_idxs_raw vocab max_char_len i
  if c.length > max_char_len then c.take max_char_len else c

/-- Whether the `set_vocab` loop increments `truncated` at index `i`. -/
def truncFlag (vocab : Vocab) (max_char_len i : Nat) : Bool :=
  (char_idxs_raw vocab max_char_len i).length > max_char_len

/-- `CharacterTokenEmbedder.set_vocab`: the `word_to_char` table (one row per
vocabulary index) together with the final `truncated` counter. -/
def set_vocab (vocab : Vocab) (max_char_len : Nat) : List (List Nat) × Nat :=
  ((List.range vocab.tokens.length).map (charRow vocab max_char_len),
   ((List.range vocab.tokens.length).filter (truncFlag vocab max_char_len)).length)

/-- The diagnostic printed at the end of `set_vocab`: emitted only when the
counter is nonzero, as an informational message (a `print`, never a raised
error), with the exact format string of the source. -/
def truncationMessage (truncated max_char_len : Nat) : Option String :=
  if truncated > 0 then
    some ("Truncated " ++ toString truncated ++ " words longer than "
      ++ toString max_char_len ++ " characters")
  else
    none

/-- Decoding a table row, as described by the spec's round-trip property:
keep codes up to the first zero and subtract one from each. -/
def decodeRow (row : List Nat) : List Nat :=
  (row.takeWhile (fun c => c ≠ 0)).map (· - 1)

theorem charRow_special {vocab : Vocab} {max_char_len i : Nat}
    (hs : i < vocab.nspecial) :
    charRow vocab max_char_len i = List.replicate max_char_len 0 := by
  simp [charRow, char_idxs_raw, hs]

theorem charRow_regular_short {vocab : Vocab} {max_char_len i : Nat}
    (hreg : vocab.nspecial ≤ i)
    (hlen : (vocab.tokens.getD i []).length ≤ max_char_len) :
    charRow vocab max_char_len i =
      (vocab.tokens.getD i []).map (· + 1) ++
        List.replicate (max_char_len - (vocab.tokens.getD i []).length) 0 := by
  have hns : ¬ i < vocab.nspecial := by omega
  simp only [charRow, char_idxs_raw, if_neg hns]
  rw [if_neg]
  simp only [List.length_append, List.length_map, List.length_replicate]
  omega

theorem charRow_regular_long {vocab : Vocab} {max_char_len i : Nat}
    (hreg : vocab.nspecial ≤ i)
    (hlen : max_char_len < (vocab.tokens.getD i []).length) :
    charRow vocab max_char_len i =
      ((vocab.tokens.getD i []).take max_char_len).map (· + 1) := by
  have hns : ¬ i < vocab.nspecial := by omega
  have hz : max_char_len - (vocab.tokens.getD i []).length = 0 := by omega
  simp only [charRow, char_idxs_raw, if_neg hns, hz, List.replicate_zero,
    List.append_nil]
  rw [if_pos (by simpa using hlen)]
  exact (List.map_take _ _ _).symm

theorem set_vocab_table_get {vocab : Vocab} {max_char_len i : Nat}
    (hi : i < vocab.tokens.length) :
    (set_vocab vocab max_char_len).1[i]? = some (charRow vocab max_char_len i) := by
  simp [set_vocab, hi]

theorem truncFlag_eq (vocab : Vocab) (max_char_len i : Nat) :
    truncFlag vocab max_char_len i =
      (decide (vocab.nspecial ≤ i) &&
       decide (max_char_len < (vocab.tokens.getD i []).length)) := by
  by_cases hs : i < vocab.nspecial
  · have : ¬ vocab.nspecial ≤ i := by omega
    simp [truncFlag, char_idxs_raw, hs, this]
  · simp only [truncFlag, char_idxs_raw, if_neg hs, List.length_append,
      List.length_map, List.length_replicate, gt_iff_lt]
    rw [Bool.eq_iff_iff]
    simp only [decide_eq_true_eq, Bool.and_eq_true]
    omega

theorem takeWhile_append_all {p : α → Bool} :
    ∀ {xs ys : List α}, (∀ x ∈ xs, p x = true) →
      (xs ++ ys).takeWhile p = xs ++ ys.takeWhile p := by
  intro xs
  induction xs with
  | nil => intro ys _; simp
  | cons a as ih =>
    intro ys h
    have ha : p a = true := h a (List.mem_cons_self a as)
    simp [List.takeWhile_cons, ha, ih (fun x hx => h x (List.mem_cons_of_mem a hx))]

theorem takeWhile_replicate_zero (k : Nat) :
    (List.replicate k (0 : Nat)).takeWhile (fun c => c ≠ 0) = [] := by
  cases k with
  | zero => simp
  | succ n => simp [List.replicate_succ, List.takeWhile_cons]

theorem decodeRow_padded (xs : List Nat) (k : Nat) :
    decodeRow (xs.map (· + 1) ++ List.replicate k 0) = xs := by
  unfold decodeRow
  rw [takeWhile_append_all (p := fun c => decide (c ≠ 0))
      (by intro x hx
          rcases List.mem_map.mp hx with ⟨b, _, rfl⟩
          simp),
    takeWhile_replicate_zero, List.append_nil, List.map_map]
  have : ((fun c => c - 1) ∘ fun c => c + 1) = fun (c : Nat) => c := by
    funext c; simp
  simp [this]

/-- Claim C3: every special row of the table built by `set_vocab` is
all-zero, for any vocabulary and any `max_char_len`. -/
theorem set_vocab_special_rows_zero (vocab : Vocab) (max_char_len i : Nat)
    (hs : i < vocab.nspecial) (hi : i < vocab.tokens.length) :
    (set_vocab vocab max_char_len).1[i]? = some (List.replicate max_char_len 0) ∧
    ∀ c ∈ (set_vocab vocab max_char_len).1.getD i [], c = 0 := by
  have hrow := @set_vocab_table_get vocab max_char_len i hi
  rw [charRow_special hs] at hrow
  refine ⟨hrow, ?_⟩
  intro c hc
  rw [List.getD_eq_getElem?_getD, hrow] at hc
  simp only [Option.getD_some] at hc
  exact List.eq_of_mem_replicate hc

/-- Claim C3 witness. -/
theorem set_vocab_special_rows_zero_witness :
    (set_vocab ⟨[[], [99]], 1, 0, 0, 0⟩ 3).1[0]? = some (List.replicate 3 0) ∧
    ∀ c ∈ (set_vocab ⟨[[], [99]], 1, 0, 0, 0⟩ 3).1.getD 0 [], c = 0 :=
  set_vocab_special_rows_zero ⟨[[], [99]], 1, 0, 0, 0⟩ 3 0 (by decide) (by decide)

/-- Claim C2: for a regular index the table row holds the byte codes each
incremented by one, right-padded with zeros to `max_char_len`, or, when the
byte sequence is longer, exactly the first `max_char_len` incremented codes;
the `truncated` counter counts exactly the regular indices whose byte
sequence exceeds `max_char_len` (one increment per such word); and when the
counter is nonzero the diagnostic is the informational message
`Truncated {count} words longer than {max_char_len} characters`. -/
theorem set_vocab_regular_rows (vocab : Vocab) (max_char_len i : Nat)
    (hreg : vocab.nspecial ≤ i) (hi : i < vocab.tokens.length) :
    ((vocab.tokens.getD i []).length ≤ max_char_len →
      (set_vocab vocab max_char_len).1[i]? =
        some ((vocab.tokens.getD i []).map (· + 1) ++
          List.replicate (max_char_len - (vocab.tokens.getD i []).length) 0)) ∧
    (max_char_len < (vocab.tokens.getD i []).length →
      (set_vocab vocab max_char_len).1[i]? =
        some (((vocab.tokens.getD i []).take max_char_len).map (· + 1))) ∧
    ((set_vocab vocab max_char_len).2 =
      ((List.range vocab.tokens.length).filter
        (fun j => decide (vocab.nspecial ≤ j) &&
          decide (max_char_len < (vocab.tokens.getD j []).length))).length) ∧
    (0 < (set_vocab vocab max_char_len).2 →
      truncationMessage (set_vocab vocab max_char_len).2 max_char_len =
        some ("Truncated " ++ toString (set_vocab vocab max_char_len).2
          ++ " words longer than " ++ toString max_char_len ++ " characters")) := by
  refine ⟨?_, ?_, ?_, ?_⟩
  · intro hlen
    rw [set_vocab_table_get hi, charRow_regular_short hreg hlen]
  · intro hlen
    rw [set_vocab_table_get hi, charRow_regular_long hreg hlen]
  · show (((List.range vocab.tokens.length).filter
        (truncFlag vocab max_char_len)).length) = _
    rw [List.filter_congr (fun j _ => truncFlag_eq vocab max_char_len j)]
  · intro hpos
    simp [truncationMessage, hpos]

/-- Claim C2 witness: vocabulary with one special entry and the regular words
"cat" and "cats", `max_char_len = 3`; "cats" is truncated and counted once. -/
theorem set_vocab_regular_rows_witness :
    ((([] : List Nat).length ≤ 3 → True)) ∧
    (set_vocab ⟨[[], [99, 97, 116], [99, 97, 116, 115]], 1, 0, 0, 0⟩ 3).1[2]? =
      some [100, 98, 117] ∧
    (set_vocab ⟨[[], [99, 97, 116], [99, 97, 116, 115]], 1, 0, 0, 0⟩ 3).2 = 1 ∧
    truncationMessage 1 3 = some "Truncated 1 words longer than 3 characters" := by
  have h := set_vocab_regular_rows ⟨[[], [99, 97, 116], [99, 97, 116, 115]], 1, 0, 0, 0⟩
    3 2 (by decide) (by decide)
  refine ⟨fun _ => trivial, ?_, ?_, ?_⟩
  · have := h.2.1 (by decide)
    simpa using this
  · rw [h.2.2.1]; decide
  · decide

/-- Claim C7: for a regular index, decoding the table row (keep codes up to
the first zero, subtract one from each) reproduces the token's byte sequence
truncated at `max_char_len`. -/
theorem set_vocab_roundtrip (vocab : Vocab) (max_char_len i : Nat)
    (hreg : vocab.nspecial ≤ i) (hi : i < vocab.tokens.length) :
    decodeRow ((set_vocab vocab max_char_len).1.getD i []) =
      (vocab.tokens.getD i []).take max_char_len := by
  rw [List.getD_eq_getElem?_getD, set_vocab_table_get hi, Option.getD_some]
  by_cases hlen : (vocab.tokens.getD i []).length ≤ max_char_len
  · rw [charRow_regular_short hreg hlen, decodeRow_padded,
      List.take_of_length_le hlen]
  · push_neg at hlen
    rw [charRow_regular_long hreg hlen]
    have := decodeRow_padded ((vocab.tokens.getD i []).take max_char_len) 0
    simpa using this

/-- Claim C7 witness. -/
theorem set_vocab_roundtrip_witness :
    decodeRow ((set_vocab ⟨[[], [99, 97, 116, 115]], 1, 0, 0, 0⟩ 3).1.getD 1 []) =
      [99, 97, 116, 115].take 3 :=
  set_vocab_roundtrip ⟨[[], [99, 97, 116, 115]], 1, 0, 0, 0⟩ 3 1 (by decide) (by decide)

/-! ## The constructed module and its forward pipeline -/

/-- Reserved padding character code (`CHAR_PAD_IDX`). -/
def CHAR_PAD_IDX : Nat := 0

/-- Raw-mode EOS sentinel character code (`CHAR_EOS_IDX`). -/
def CHAR_EOS_IDX : Nat := 257

def dot (a b : List ℤ) : ℤ :=
  ((a.zip b).map (fun p => p.1 * p.2)).sum

def relu (x : ℤ) : ℤ := max x 0

def listMax : List ℤ → ℤ
  | [] => 0
  | x :: xs => xs.foldl max x

/-- One `nn.Conv1d(char_embed_dim, out_c, kernel_size=width)`: kernel width,
weight of shape `out_c × in_c × width`, bias of length `out_c`. -/
structure Conv1dP where
  width : Nat
  weight : List (List (List ℤ))
  bias : List ℤ

/-- Output channel `o` of the convolution at spatial position `t`, for one
word whose character-embedding matrix is `embs` (`T × char_embed_dim`):
`bias[o] + sum over c, k of weight[o][c][k] * embs[t+k][c]`. -/
def convOut (p : Conv1dP) (embs : List (List ℤ)) (o t : Nat) : ℤ :=
  p.bias.getD o 0 +
    ((List.range p.width).map (fun k =>
      dot ((p.weight.getD o []).map (fun wc => wc.getD k 0))
        (embs.getD (t + k) []))).sum

/-- `conv(x)` followed by `torch.max(x, -1)` and `F.relu` for one word: fails
(as the source convolution does) unless `1 ≤ width ≤ T`; otherwise one value
per output channel, `relu` of the max over the `T - width + 1` positions. -/
def convFilter (p : Conv1dP) (embs : List (List ℤ)) : Option (List ℤ) :=
  if 1 ≤ p.width ∧ p.width ≤ embs.length then
    some ((List.range p.weight.length).map (fun o =>
      relu (listMax ((List.range (embs.length - p.width + 1)).map
        (fun t => convOut p embs o t)))))
  else
    none

/-- `nn.Linear`: `y = W x + b`. -/
def linear (w : List (List ℤ)) (b : List ℤ) (x : List ℤ) : List ℤ :=
  (w.zip b).map (fun rb => rb.2 + dot rb.1 x)

/-- The state of a constructed `CharacterTokenEmbedder`: its learned
parameters, the reserved vocabulary indices it compares against, and the
`word_to_char` table built by `set_vocab`. -/
structure Module where
  max_char_len : Nat
  /-- `nn.Embedding(257, char_embed_dim, padding_idx=0)`, as its 257 rows. -/
  char_embeddings : List (List ℤ)
  /-- `nn.Parameter(torch.FloatTensor(2, word_embed_dim))`; row 0 is the eos
  symbol vector (`eos_idx = 0`), row 1 the unk one (`unk_idx = 1`). -/
  symbol_embeddings : List (List ℤ)
  char_inputs : Bool
  convolutions : List Conv1dP
  /-- Modelled from the spec: the external `Highway` block used by
  `_convolve` (its source, `highway.py`, is not among the source files) — "a
  stack of gated residual linear transforms preserving input/output width",
  taken here as an opaque transform of the concatenated filter outputs. -/
  highway : List ℤ → List ℤ
  proj_weight : List (List ℤ)
  proj_bias : List ℤ
  vocab_pad : Nat
  vocab_eos : Nat
  vocab_unk : Nat
  word_to_char : List (List Nat)

/-- `CharacterTokenEmbedder._convolve`: embedding lookup of every code (an
out-of-range code fails the whole lookup), then every convolution filter with
max-over-time pooling and `relu`, concatenation in filter-bank order, the
highway block and the final projection. -/
def convolve (m : Module) (chars : List (List Nat)) : Option (List (List ℤ)) :=
  (mapO (fun row => mapO (fun c => m.char_embeddings[c]?) row) chars).bind
    (fun charEmbs =>
      (mapO (fun embs => mapO (fun p => convFilter p embs) m.convolutions)
          charEmbs).map
        (fun convRes =>
          convRes.map (fun xs =>
            linear m.proj_weight m.proj_bias (m.highway xs.flatten))))

/-- Token-id mode mask `pads = flat_words.eq(self.vocab.pad())`. -/
def padMask (m : Module) (flat_words : List Nat) : List Bool :=
  flat_words.map (fun w => w == m.vocab_pad)

/-- Token-id mode mask `eos = flat_words.eq(self.vocab.eos())`. -/
def eosMask (m : Module) (flat_words : List Nat) : List Bool :=
  flat_words.map (fun w => w == m.vocab_eos)

/-- Token-id mode mask `unk = flat_words.eq(self.vocab.unk())`. -/
def unkMask (m : Module) (flat_words : List Nat) : List Bool :=
  flat_words.map (fun w => w == m.vocab_unk)

/-- Raw-character mode mask `pads = chars[:, 0].eq(CHAR_PAD_IDX)`. -/
def padMaskC (input : List (List Nat)) : List Bool :=
  input.map (fun row => row.getD 0 0 == CHAR_PAD_IDX)

/-- Raw-character mode mask `eos = chars[:, 0].eq(CHAR_EOS_IDX)`. -/
def eosMaskC (input : List (List Nat)) : List Bool :=
  input.map (fun row => row.getD 0 0 == CHAR_EOS_IDX)

/-- The in-place write `chars[eos] = 0`: every row whose first code is the
EOS sentinel is overwritten with zeros (the other rows are untouched).
Because `chars` is a view of the caller's input tensor, this is also what the
input tensor holds after the call. -/
def clearEos (input : List (List Nat)) : List (List Nat) :=
  input.map (fun row =>
    if row.getD 0 0 == CHAR_EOS_IDX then row.map (fun _ => 0) else row)

/-- One masked row assignment `word_embs[mask] = ...`: each row where the
mask holds is replaced by `f` of it. -/
def overrideRows (embs : List (List ℤ)) (mask : List Bool)
    (f : List ℤ → List ℤ) : List (List ℤ) :=
  (embs.zip mask).map (fun vb => if vb.2 then f vb.1 else vb.1)

/-- The special-token override block of `forward`, in source order: pad rows
zeroed, then eos rows set to `symbol_embeddings[eos_idx]`, then — only when an
unk mask exists, i.e. in token-id mode — unk rows set to
`symbol_embeddings[unk_idx]`. -/
def applyOverrides (m : Module) (embs : List (List ℤ)) (pads eos : List Bool)
    (unk : Option (List Bool)) : List (List ℤ) :=
  let e1 := overrideRows embs pads (fun v => v.map (fun _ => 0))
  let e2 := overrideRows e1 eos (fun _ => m.symbol_embeddings.getD 0 [])
  match unk with
  | none => e2
  | some u => overrideRows e2 u (fun _ => m.symbol_embeddings.getD 1 [])

/-- The token-id branch of `CharacterTokenEmbedder.forward`, over the
flattened word ids: gather the character rows from `word_to_char` (failing on
an out-of-range id), compose, then apply the three overrides. -/
def forwardTokens (m : Module) (input : List Nat) : Option (List (List ℤ)) :=
  (mapO (fun w => m.word_to_char[w]?) input).bind (fun chars =>
    (convolve m chars).map (fun word_embs =>
      applyOverrides m word_embs (padMask m input) (eosMask m input)
        (some (unkMask m input))))

/-- The raw-character branch of `CharacterTokenEmbedder.forward`, over the
rows of `input.view(-1, max_char_len)`.  The first component is the returned
embedding matrix (`none` when a lookup or a convolution raises); the second
is the contents of the caller's input tensor after the call — `chars` is a
view of it and `chars[eos] = 0` writes through that view. -/
def forwardChars (m : Module) (input : List (List Nat)) :
    Option (List (List ℤ)) × List (List Nat) :=
  ((convolve m (clearEos input)).map (fun word_embs =>
      applyOverrides m word_embs (padMaskC input) (eosMaskC input) none),
   clearEos input)

theorem mem_of_getElem?_eq {l : List α} :
    ∀ {j : Nat} {a : α}, l[j]? = some a → a ∈ l := by
  induction l with
  | nil => intro j a h; simp at h
  | cons x xs ih =>
    intro j a h
    cases j with
    | zero => simp at h; simp [h]
    | succ j' =>
      simp at h
      exact List.mem_cons_of_mem x (ih h)

theorem getElem?_exists_of_lt {l : List α} {j : Nat} (h : j < l.length) :
    ∃ a, l[j]? = some a := by
  cases hl : l[j]? with
  | none => rw [List.getElem?_eq_none_iff] at hl; omega
  | some a => exact ⟨a, rfl⟩

theorem lt_length_of_getElem? {l : List α} {j : Nat} {a : α}
    (h : l[j]? = some a) : j < l.length := by
  by_contra hj
  rw [List.getElem?_eq_none_iff.mpr (by omega)] at h
  exact Option.noConfusion h

theorem convolve_length {m : Module} {chars : List (List Nat)}
    {out : List (List ℤ)} (h : convolve m chars = some out) :
    out.length = chars.length := by
  unfold convolve at h
  cases h1 : mapO (fun row => mapO (fun c => m.char_embeddings[c]?) row) chars with
  | none => rw [h1] at h; simp at h
  | some ce =>
    rw [h1] at h
    simp only [Option.some_bind] at h
    cases h2 : mapO (fun embs => mapO (fun p => convFilter p embs) m.convolutions) ce with
    | none => rw [h2] at h; simp at h
    | some cr =>
      rw [h2] at h
      rw [Option.map_some'] at h
      have h5 := Option.some.inj h
      have h3 := mapO_length h1
      have h4 := mapO_length h2
      rw [← h5, List.length_map, h4, h3]

theorem overrideRows_get? {f : List ℤ → List ℤ} :
    ∀ {embs : List (List ℤ)} {mask : List Bool} {j : Nat} {v : List ℤ} {b : Bool},
      embs[j]? = some v → mask[j]? = some b →
      (overrideRows embs mask f)[j]? = some (if b then f v else v) := by
  intro embs
  induction embs with
  | nil => intro mask j v b h _; simp at h
  | cons e es ih =>
    intro mask j v b h1 h2
    cases mask with
    | nil => simp at h2
    | cons bm ms =>
      cases j with
      | zero =>
        simp at h1 h2
        subst h1; subst h2
        simp [overrideRows]
      | succ j' =>
        simp at h1 h2
        have := ih h1 h2
        simpa [overrideRows] using this

theorem forwardTokens_eq {m : Module} {input : List Nat} {out : List (List ℤ)}
    (h : forwardTokens m input = some out) :
    ∃ chars word_embs,
      mapO (fun w => m.word_to_char[w]?) input = some chars ∧
      convolve m chars = some word_embs ∧
      out = applyOverrides m word_embs (padMask m input) (eosMask m input)
        (some (unkMask m input)) := by
  unfold forwardTokens at h
  cases h1 : mapO (fun w => m.word_to_char[w]?) input with
  | none => rw [h1] at h; simp at h
  | some chars =>
    rw [h1] at h
    simp only [Option.some_bind] at h
    cases h2 : convolve m chars with
    | none => rw [h2] at h; simp at h
    | some we =>
      rw [h2, Option.map_some'] at h
      exact ⟨chars, we, rfl, h2, (Option.some.inj h).symm⟩

theorem forwardChars_eq {m : Module} {input : List (List Nat)}
    {out : List (List ℤ)} (h : (forwardChars m input).1 = some out) :
    ∃ word_embs,
      convolve m (clearEos input) = some word_embs ∧
      out = applyOverrides m word_embs (padMaskC input) (eosMaskC input) none := by
  unfold forwardChars at h
  dsimp only at h
  cases h2 : convolve m (clearEos input) with
  | none => rw [h2] at h; simp at h
  | some we =>
    rw [h2, Option.map_some'] at h
    exact ⟨we, rfl, (Option.some.inj h).symm⟩

theorem padMask_get? {m : Module} {input : List Nat} {j w : Nat}
    (h : input[j]? = some w) :
    (padMask m input)[j]? = some (w == m.vocab_pad) := by
  simp [padMask, h]

theorem eosMask_get? {m : Module} {input : List Nat} {j w : Nat}
    (h : input[j]? = some w) :
    (eosMask m input)[j]? = some (w == m.vocab_eos) := by
  simp [eosMask, h]

theorem unkMask_get? {m : Module} {input : List Nat} {j w : Nat}
    (h : input[j]? = some w) :
    (unkMask m input)[j]? = some (w == m.vocab_unk) := by
  simp [unkMask, h]

theorem padMaskC_get? {input : List (List Nat)} {j : Nat} {row : List Nat}
    (h : input[j]? = some row) :
    (padMaskC input)[j]? = some (row.getD 0 0 == CHAR_PAD_IDX) := by
  simp [padMaskC, h]

theorem eosMaskC_get? {input : List (List Nat)} {j : Nat} {row : List Nat}
    (h : input[j]? = some row) :
    (eosMaskC input)[j]? = some (row.getD 0 0 == CHAR_EOS_IDX) := by
  simp [eosMaskC, h]

theorem clearEos_get? {input : List (List Nat)} {j : Nat} {row : List Nat}
    (h : input[j]? = some row) :
    (clearEos input)[j]? =
      some (if row.getD 0 0 == CHAR_EOS_IDX then row.map (fun _ => 0) else row) := by
  simp [clearEos, h]

theorem applyOverrides_some_get? {m : Module} {embs : List (List ℤ)}
    {pads eos u : List Bool} {j : Nat} {v : List ℤ} {bp be bu : Bool}
    (hv : embs[j]? = some v) (hp : pads[j]? = some bp)
    (he : eos[j]? = some be) (hu : u[j]? = some bu) :
    (applyOverrides m embs pads eos (some u))[j]? =
      some (if bu then m.symbol_embeddings.getD 1 []
        else if be then m.symbol_embeddings.getD 0 []
        else if bp then v.map (fun _ => 0) else v) := by
  unfold applyOverrides
  have e1 := overrideRows_get? (f := fun v => v.map (fun _ => 0)) hv hp
  have e2 := overrideRows_get? (f := fun _ => m.symbol_embeddings.getD 0 []) e1 he
  have e3 := overrideRows_get? (f := fun _ => m.symbol_embeddings.getD 1 []) e2 hu
  simpa using e3

theorem applyOverrides_none_get? {m : Module} {embs : List (List ℤ)}
    {pads eos : List Bool} {j : Nat} {v : List ℤ} {bp be : Bool}
    (hv : embs[j]? = some v) (hp : pads[j]? = some bp)
    (he : eos[j]? = some be) :
    (applyOverrides m embs pads eos none)[j]? =
      some (if be then m.symbol_embeddings.getD 0 []
        else if bp then v.map (fun _ => 0) else v) := by
  unfold applyOverrides
  have e1 := overrideRows_get? (f := fun v => v.map (fun _ => 0)) hv hp
  have e2 := overrideRows_get? (f := fun _ => m.symbol_embeddings.getD 0 []) e1 he
  simpa using e2

/-- Claim C1: in token-id mode, with pairwise-distinct reserved indices, the
`pads`/`eos`/`unk` masks are pairwise disjoint, and in the returned embedding
matrix every pad position is the all-zero vector, every eos position equals
`symbol_embeddings[eos_idx]` and every unk position equals
`symbol_embeddings[unk_idx]` — for an arbitrary module, hence regardless of
the convolution output at those positions. -/
theorem forward_token_mode_masking (m : Module) (input : List Nat)
    (out : List (List ℤ))
    (hpe : m.vocab_pad ≠ m.vocab_eos) (hpu : m.vocab_pad ≠ m.vocab_unk)
    (heu : m.vocab_eos ≠ m.vocab_unk)
    (hout : forwardTokens m input = some out) :
    (∀ j : Nat,
      ¬((padMask m input).getD j false = true ∧ (eosMask m input).getD j false = true) ∧
      ¬((padMask m input).getD j false = true ∧ (unkMask m input).getD j false = true) ∧
      ¬((eosMask m input).getD j false = true ∧ (unkMask m input).getD j false = true)) ∧
    ∀ j w, input[j]? = some w →
      (w = m.vocab_pad → ∀ q ∈ out.getD j [], q = 0) ∧
      (w = m.vocab_eos → out[j]? = some (m.symbol_embeddings.getD 0 [])) ∧
      (w = m.vocab_unk → out[j]? = some (m.symbol_embeddings.getD 1 [])) := by
  obtain ⟨chars, we, h1, h2, h3⟩ := forwardTokens_eq hout
  constructor
  · intro j
    by_cases hj : j < input.length
    · obtain ⟨w, hw⟩ := getElem?_exists_of_lt hj
      have hp : (padMask m input).getD j false = (w == m.vocab_pad) := by
        rw [List.getD_eq_getElem?_getD, padMask_get? hw]; rfl
      have he : (eosMask m input).getD j false = (w == m.vocab_eos) := by
        rw [List.getD_eq_getElem?_getD, eosMask_get? hw]; rfl
      have hu : (unkMask m input).getD j false = (w == m.vocab_unk) := by
        rw [List.getD_eq_getElem?_getD, unkMask_get? hw]; rfl
      refine ⟨?_, ?_, ?_⟩
      · rintro ⟨ha, hb⟩
        rw [hp] at ha; rw [he] at hb
        exact hpe ((eq_of_beq ha).symm.trans (eq_of_beq hb))
      · rintro ⟨ha, hb⟩
        rw [hp] at ha; rw [hu] at hb
        exact hpu ((eq_of_beq ha).symm.trans (eq_of_beq hb))
      · rintro ⟨ha, hb⟩
        rw [he] at ha; rw [hu] at hb
        exact heu ((eq_of_beq ha).symm.trans (eq_of_beq hb))
    · have hnone : input[j]? = none := List.getElem?_eq_none_iff.mpr (by omega)
      have hp : (padMask m input).getD j false = false := by
        rw [List.getD_eq_getElem?_getD]
        simp [padMask, hnone]
      have he' : (eosMask m input).getD j false = false := by
        rw [List.getD_eq_getElem?_getD]
        simp [eosMask, hnone]
      refine ⟨?_, ?_, ?_⟩
      · rintro ⟨ha, _⟩; rw [hp] at ha; exact Bool.false_ne_true ha
      · rintro ⟨ha, _⟩; rw [hp] at ha; exact Bool.false_ne_true ha
      · rintro ⟨ha, _⟩; rw [he'] at ha; exact Bool.false_ne_true ha
  · intro j w hw
    have hj : j < input.length := lt_length_of_getElem? hw
    have hwe : j < we.length := by
      rw [convolve_length h2, mapO_length h1]; exact hj
    obtain ⟨v, hv⟩ := getElem?_exists_of_lt hwe
    have hp := padMask_get? (m := m) hw
    have he := eosMask_get? (m := m) hw
    have hu := unkMask_get? (m := m) hw
    have hoget := applyOverrides_some_get? (m := m) hv hp he hu
    rw [← h3] at hoget
    refine ⟨?_, ?_, ?_⟩
    · intro hwp
      have b1 : (w == m.vocab_unk) = false := by
        rw [hwp]; exact beq_eq_false_iff_ne.mpr hpu
      have b2 : (w == m.vocab_eos) = false := by
        rw [hwp]; exact beq_eq_false_iff_ne.mpr hpe
      have b3 : (w == m.vocab_pad) = true := by rw [hwp]; exact beq_self_eq_true _
      rw [b1, b2, b3] at hoget
      simp only [Bool.false_eq_true, if_false, if_true] at hoget
      intro q hq
      rw [List.getD_eq_getElem?_getD, hoget] at hq
      simp only [Option.getD_some] at hq
      obtain ⟨a, _, hfa⟩ := List.mem_map.mp hq
      exact hfa.symm
    · intro hwe'
      have b1 : (w == m.vocab_unk) = false := by
        rw [hwe']; exact beq_eq_false_iff_ne.mpr heu
      have b2 : (w == m.vocab_eos) = true := by rw [hwe']; exact beq_self_eq_true _
      rw [b1, b2] at hoget
      simpa using hoget
    · intro hwu
      have b1 : (w == m.vocab_unk) = true := by rw [hwu]; exact beq_self_eq_true _
      rw [b1] at hoget
      simpa using hoget

/-- Claim C4: in raw-character mode a row is treated as pad exactly when its
first code is `CHAR_PAD_IDX` (output row all-zero) and as eos exactly when
its first code is `CHAR_EOS_IDX` (output row `symbol_embeddings[eos_idx]`,
and the row is cleared to all-zero before composition, so the sentinel 257 is
never looked up in the character embedding table); every other row's output
is the untouched composed vector — no unk override exists in this mode. -/
theorem forward_char_mode_masking (m : Module) (input : List (List Nat))
    (out : List (List ℤ))
    (hout : (forwardChars m input).1 = some out) :
    ∀ j row, input[j]? = some row →
      (row.getD 0 0 = CHAR_PAD_IDX → ∀ q ∈ out.getD j [], q = 0) ∧
      (row.getD 0 0 = CHAR_EOS_IDX →
        out[j]? = some (m.symbol_embeddings.getD 0 []) ∧
        (clearEos input)[j]? = some (List.replicate row.length 0) ∧
        ∀ c ∈ (clearEos input).getD j [], c = CHAR_PAD_IDX) ∧
      (row.getD 0 0 ≠ CHAR_PAD_IDX → row.getD 0 0 ≠ CHAR_EOS_IDX →
        ∃ composed, convolve m (clearEos input) = some composed ∧
          out[j]? = composed[j]? ∧ (clearEos input)[j]? = some row) := by
  obtain ⟨we, h2, h3⟩ := forwardChars_eq hout
  intro j row hw
  have hj : j < input.length := lt_length_of_getElem? hw
  have hwe : j < we.length := by
    rw [convolve_length h2]
    simpa [clearEos] using hj
  obtain ⟨v, hv⟩ := getElem?_exists_of_lt hwe
  have hp := padMaskC_get? hw
  have he := eosMaskC_get? hw
  have hoget := applyOverrides_none_get? (m := m) hv hp he
  rw [← h3] at hoget
  refine ⟨?_, ?_, ?_⟩
  · intro h0
    have b1 : (row.getD 0 0 == CHAR_EOS_IDX) = false := by
      rw [h0]; decide
    have b2 : (row.getD 0 0 == CHAR_PAD_IDX) = true := by
      rw [h0]; exact beq_self_eq_true _
    rw [b1, b2] at hoget
    simp only [Bool.false_eq_true, if_false, if_true] at hoget
    intro q hq
    rw [List.getD_eq_getElem?_getD, hoget] at hq
    simp only [Option.getD_some] at hq
    obtain ⟨a, _, hfa⟩ := List.mem_map.mp hq
    exact hfa.symm
  · intro h257
    have b1 : (row.getD 0 0 == CHAR_EOS_IDX) = true := by
      rw [h257]; exact beq_self_eq_true _
    rw [b1] at hoget
    simp only [if_true] at hoget
    have hclear : (clearEos input)[j]? = some (row.map (fun _ => 0)) := by
      rw [clearEos_get? hw, b1]; simp
    refine ⟨by simpa using hoget, by rw [hclear]; simp, ?_⟩
    intro c hc
    rw [List.getD_eq_getElem?_getD, hclear] at hc
    simp only [Option.getD_some] at hc
    obtain ⟨a, _, hfa⟩ := List.mem_map.mp hc
    simp [CHAR_PAD_IDX, ← hfa]
  · intro hne0 hne257
    have b1 : (row.getD 0 0 == CHAR_EOS_IDX) = false := beq_eq_false_iff_ne.mpr hne257
    have b2 : (row.getD 0 0 == CHAR_PAD_IDX) = false := beq_eq_false_iff_ne.mpr hne0
    rw [b1, b2] at hoget
    simp only [Bool.false_eq_true, if_false] at hoget
    refine ⟨we, h2, ?_, ?_⟩
    · rw [hoget, hv]
    · rw [clearEos_get? hw, b1]; simp

/-- Claim C10: the raw-character branch mutates the caller's input tensor in
place — after a call on a batch with at least one EOS-sentinel row, those
rows of the input hold zeros and every other row is unchanged. -/
theorem forward_char_mode_mutates_input (m : Module) (input : List (List Nat))
    (_hex : ∃ row ∈ input, row.getD 0 0 = CHAR_EOS_IDX) :
    (forwardChars m input).2 = clearEos input ∧
    ∀ (j : Nat) (row : List Nat), input[j]? = some row →
      (row.getD 0 0 = CHAR_EOS_IDX →
        (forwardChars m input).2[j]? = some (List.replicate row.length 0)) ∧
      (row.getD 0 0 ≠ CHAR_EOS_IDX →
        (forwardChars m input).2[j]? = some row) := by
  refine ⟨rfl, ?_⟩
  intro j row hw
  have h2 : (forwardChars m input).2 = clearEos input := rfl
  constructor
  · intro h257
    have b1 : (row.getD 0 0 == CHAR_EOS_IDX) = true := by
      rw [h257]; exact beq_self_eq_true _
    rw [h2, clearEos_get? hw, b1]
    simp
  · intro hne
    have b1 : (row.getD 0 0 == CHAR_EOS_IDX) = false := beq_eq_false_iff_ne.mpr hne
    rw [h2, clearEos_get? hw, b1]
    simp

/-- Claim C9: composition is deterministic — two modules whose parameters
(character embeddings, symbol embeddings, convolution filters, highway
transform, projection weight and bias, reserved indices, index table,
configuration constants) agree produce identical outputs on identical
inputs, in both operating modes. -/
theorem forward_deterministic (m₁ m₂ : Module) (tokens : List Nat)
    (rawInput : List (List Nat))
    (h1 : m₁.max_char_len = m₂.max_char_len)
    (h2 : m₁.char_embeddings = m₂.char_embeddings)
    (h3 : m₁.symbol_embeddings = m₂.symbol_embeddings)
    (h4 : m₁.char_inputs = m₂.char_inputs)
    (h5 : m₁.convolutions = m₂.convolutions)
    (h6 : m₁.highway = m₂.highway)
    (h7 : m₁.proj_weight = m₂.proj_weight)
    (h8 : m₁.proj_bias = m₂.proj_bias)
    (h9 : m₁.vocab_pad = m₂.vocab_pad)
    (h10 : m₁.vocab_eos = m₂.vocab_eos)
    (h11 : m₁.vocab_unk = m₂.vocab_unk)
    (h12 : m₁.word_to_char = m₂.word_to_char) :
    forwardTokens m₁ tokens = forwardTokens m₂ tokens ∧
    forwardChars m₁ rawInput = forwardChars m₂ rawInput := by
  cases m₁
  cases m₂
  simp only at h1 h2 h3 h4 h5 h6 h7 h8 h9 h10 h11 h12
  subst h1; subst h2; subst h3; subst h4; subst h5; subst h6
  subst h7; subst h8; subst h9; subst h10; subst h11; subst h12
  exact ⟨rfl, rfl⟩

/-- A small concrete module in token-id mode, used by witnesses: one width-1
filter with unit weight, identity highway, projection `x ↦ 2x + 3`,
reserved indices `pad = 0`, `eos = 1`, `unk = 2`. -/
def cmTok : Module :=
  ⟨2, [[0], [1]], [[7], [9]], false, [⟨1, [[[1]]], [0]⟩], fun x => x, [[2]], [3],
   0, 1, 2, [[0, 0], [0, 0], [0, 0], [1, 1]]⟩

/-- A small concrete module in raw-character mode, used by witnesses. -/
def cmRaw : Module :=
  ⟨2, [[0], [5]], [[7], [9]], true, [⟨1, [[[1]]], [0]⟩], fun x => x, [[2]], [3],
   0, 1, 2, []⟩

/-- Claim C1 witness: the batch `[pad, eos, unk]` on `cmTok` composes to
`[[3], [3], [3]]` and is overridden to `[[0], [7], [9]]`. -/
theorem forward_token_mode_masking_witness :
    forwardTokens cmTok [0, 1, 2] = some [[0], [7], [9]] ∧
    (∀ (j : Nat) (w : Nat), ([0, 1, 2] : List Nat)[j]? = some w →
      (w = cmTok.vocab_pad → ∀ q ∈ ([[0], [7], [9]] : List (List ℤ)).getD j [], q = 0) ∧
      (w = cmTok.vocab_eos →
        ([[0], [7], [9]] : List (List ℤ))[j]? = some (cmTok.symbol_embeddings.getD 0 [])) ∧
      (w = cmTok.vocab_unk →
        ([[0], [7], [9]] : List (List ℤ))[j]? = some (cmTok.symbol_embeddings.getD 1 []))) :=
  ⟨by decide,
   (forward_token_mode_masking cmTok [0, 1, 2] [[0], [7], [9]]
     (by decide) (by decide) (by decide) (by decide)).2⟩

/-- Claim C4 witness: raw batch with an eos row, a pad row and an ordinary
row; output `[[7], [0], [13]]`. -/
theorem forward_char_mode_masking_witness :
    (forwardChars cmRaw [[257, 1], [0, 0], [1, 1]]).1 = some [[7], [0], [13]] ∧
    (∀ (j : Nat) (row : List Nat), ([[257, 1], [0, 0], [1, 1]] : List (List Nat))[j]? = some row →
      (row.getD 0 0 = CHAR_PAD_IDX →
        ∀ q ∈ ([[7], [0], [13]] : List (List ℤ)).getD j [], q = 0) ∧
      (row.getD 0 0 = CHAR_EOS_IDX →
        ([[7], [0], [13]] : List (List ℤ))[j]? = some (cmRaw.symbol_embeddings.getD 0 []) ∧
        (clearEos [[257, 1], [0, 0], [1, 1]])[j]? = some (List.replicate row.length 0) ∧
        ∀ c ∈ (clearEos [[257, 1], [0, 0], [1, 1]]).getD j [], c = CHAR_PAD_IDX) ∧
      (row.getD 0 0 ≠ CHAR_PAD_IDX → row.getD 0 0 ≠ CHAR_EOS_IDX →
        ∃ composed, convolve cmRaw (clearEos [[257, 1], [0, 0], [1, 1]]) = some composed ∧
          ([[7], [0], [13]] : List (List ℤ))[j]? = composed[j]? ∧
          (clearEos [[257, 1], [0, 0], [1, 1]])[j]? = some row)) :=
  ⟨by decide,
   forward_char_mode_masking cmRaw [[257, 1], [0, 0], [1, 1]] [[7], [0], [13]]
     (by decide)⟩

/-- Claim C10 witness: after the call, the caller's tensor holds zeros in the
eos row and the other rows unchanged. -/
theorem forward_char_mode_mutates_input_witness :
    (forwardChars cmRaw [[257, 1], [0, 0], [1, 1]]).2 =
      clearEos [[257, 1], [0, 0], [1, 1]] ∧
    ∀ (j : Nat) (row : List Nat),
      ([[257, 1], [0, 0], [1, 1]] : List (List Nat))[j]? = some row →
      (row.getD 0 0 = CHAR_EOS_IDX →
        (forwardChars cmRaw [[257, 1], [0, 0], [1, 1]]).2[j]? =
          some (List.replicate row.length 0)) ∧
      (row.getD 0 0 ≠ CHAR_EOS_IDX →
        (forwardChars cmRaw [[257, 1], [0, 0], [1, 1]]).2[j]? = some row) :=
  forward_char_mode_mutates_input cmRaw [[257, 1], [0, 0], [1, 1]]
    ⟨[257, 1], by decide, by decide⟩

/-- Claim C9 witness. -/
theorem forward_deterministic_witness :
    forwardTokens cmTok [0, 1, 2] = forwardTokens cmTok [0, 1, 2] ∧
    forwardChars cmTok [[1, 1]] = forwardChars cmTok [[1, 1]] :=
  forward_deterministic cmTok cmTok [0, 1, 2] [[1, 1]]
    rfl rfl rfl rfl rfl rfl rfl rfl rfl rfl rfl rfl

/-! ## Initialization (`reset_parameters`) and the padding-row invariant -/

/-- `nn.init.constant_(weight[0], 0.)`: fill row 0 of a matrix with zeros,
leaving its shape and every other row untouched. -/
def zeroRow0 : List (List ℤ) → List (List ℤ)
  | [] => []
  | r :: rs => r.map (fun _ => 0) :: rs

/-- `CharacterTokenEmbedder.reset_parameters`.  The three `xavier_normal_`
fills draw random values; the draws are taken as arguments, so every
property below holds for arbitrary draws.  After the fills, row 0 of the
character embedding table (its `padding_idx`) is filled with zeros and the
projection bias is filled with zeros, in source order. -/
def reset_parameters (m : Module)
    (drawChar drawSym drawProj : List (List ℤ)) : Module :=
  { m with
    char_embeddings := zeroRow0 drawChar,
    symbol_embeddings := drawSym,
    proj_weight := drawProj,
    proj_bias := m.proj_bias.map (fun _ => 0) }

/-- One parameter update of an embedding matrix: an arbitrary per-row
rewrite `u i row`.  The source's "never update row 0" discipline
(`padding_idx=0` excludes the padding row from gradient updates) is the
hypothesis `u 0 v = v`. -/
def applyUpdate (u : Nat → List ℤ → List ℤ) (mat : List (List ℤ)) :
    List (List ℤ) :=
  mat.enum.map (fun p => u p.1 p.2)

/-- A sequence of parameter updates applied in order. -/
def applyUpdates (us : List (Nat → List ℤ → List ℤ))
    (mat : List (List ℤ)) : List (List ℤ) :=
  us.foldl (fun acc u => applyUpdate u acc) mat

theorem applyUpdate_getD0 (u : Nat → List ℤ → List ℤ) (r : List ℤ)
    (rs : List (List ℤ)) :
    (applyUpdate u (r :: rs)).getD 0 [] = u 0 r := by
  simp [applyUpdate, List.enum_cons]

theorem row0_invariant (us : List (Nat → List ℤ → List ℤ))
    (hus : ∀ u ∈ us, ∀ v, u 0 v = v) :
    ∀ mat : List (List ℤ), (∀ q ∈ mat.getD 0 [], q = 0) →
      ∀ q ∈ (applyUpdates us mat).getD 0 [], q = 0 := by
  induction us with
  | nil => intro mat h; simpa [applyUpdates] using h
  | cons u us ih =>
    intro mat h
    have h0 : ∀ q ∈ (applyUpdate u mat).getD 0 [], q = 0 := by
      cases mat with
      | nil => simp [applyUpdate]
      | cons r rs =>
        rw [applyUpdate_getD0, hus u (List.mem_cons_self u us) r]
        intro q hq
        exact h q (by simpa using hq)
    have := ih (fun u' hu' => hus u' (List.mem_cons_of_mem u hu')) (applyUpdate u mat) h0
    simpa [applyUpdates] using this

/-- Claim C8: after `reset_parameters` the padding row (row 0 of the
character embedding table) is exactly zero and the projection bias is
exactly zero, and the padding row remains exactly zero under any sequence
of parameter updates that respect the never-update-row-0 rule. -/
theorem reset_parameters_padding_row (m : Module)
    (drawChar drawSym drawProj : List (List ℤ))
    (us : List (Nat → List ℤ → List ℤ))
    (hus : ∀ u ∈ us, ∀ v, u 0 v = v) :
    (∀ q ∈ (reset_parameters m drawChar drawSym drawProj).char_embeddings.getD 0 [],
      q = 0) ∧
    (∀ q ∈ (reset_parameters m drawChar drawSym drawProj).proj_bias, q = 0) ∧
    (∀ q ∈ (applyUpdates us
        (reset_parameters m drawChar drawSym drawProj).char_embeddings).getD 0 [],
      q = 0) := by
  have hrow0 : ∀ q ∈ (reset_parameters m drawChar drawSym drawProj).char_embeddings.getD 0 [],
      q = 0 := by
    cases drawChar with
    | nil => simp [reset_parameters, zeroRow0]
    | cons r rs =>
      simp only [reset_parameters, zeroRow0]
      intro q hq
      simp only [List.getD_cons_zero] at hq
      obtain ⟨a, _, hfa⟩ := List.mem_map.mp hq
      exact hfa.symm
  refine ⟨hrow0, ?_, row0_invariant us hus _ hrow0⟩
  intro q hq
  simp only [reset_parameters] at hq
  obtain ⟨a, _, hfa⟩ := List.mem_map.mp hq
  exact hfa.symm

/-- Claim C8 witness: concrete draws and one rule-respecting update. -/
theorem reset_parameters_padding_row_witness :
    (∀ q ∈ (reset_parameters cmTok [[4, 5], [6, 7]] [[8]] [[9]]).char_embeddings.getD 0 [],
      q = 0) ∧
    (∀ q ∈ (reset_parameters cmTok [[4, 5], [6, 7]] [[8]] [[9]]).proj_bias, q = 0) ∧
    (∀ q ∈ (applyUpdates [fun i v => if i = 0 then v else v.map (· + 1)]
        (reset_parameters cmTok [[4, 5], [6, 7]] [[8]] [[9]]).char_embeddings).getD 0 [],
      q = 0) :=
  reset_parameters_padding_row cmTok [[4, 5], [6, 7]] [[8]] [[9]]
    [fun i v => if i = 0 then v else v.map (· + 1)]
    (by intro u hu v
        simp only [List.mem_singleton] at hu
        subst hu
        simp)

/-! ## Construction (`__init__`) -/

/-- The constructor arguments of `CharacterTokenEmbedder` besides the
vocabulary: filter bank, embedding widths, highway depth, `max_char_len`,
mode flag. -/
structure Config where
  filters : List (Nat × Nat)
  char_embed_dim : Nat
  word_embed_dim : Nat
  highway_layers : Nat
  max_char_len : Nat
  char_inputs : Bool

/-- `final_dim = sum(f[1] for f in filters)`. -/
def final_dim (filters : List (Nat × Nat)) : Nat :=
  (filters.map Prod.snd).sum

/-- Whether a constructor call returned a module rather than a
configuration error. -/
def ctorOk : Except String Module → Bool
  | Except.ok _ => true
  | Except.error _ => false

/-- `CharacterTokenEmbedder.__init__`, `Except`-valued so that a
construction-time configuration error would be representable.  The source
performs no validation — not of the filter widths against `max_char_len`,
not of `final_dim` — and none of the allocations in it can raise for these
configurations, so no code path yields `Except.error`.  The randomly
initialized convolution parameters (one weight/bias pair per filter, widths
from the config) and the highway block are taken as arguments; `set_vocab`
and `reset_parameters` are invoked as in the source. -/
def initE (cfg : Config) (vocab : Vocab)
    (convDraws : List (List (List (List ℤ)) × List ℤ))
    (hw : List ℤ → List ℤ)
    (drawChar drawSym drawProj : List (List ℤ)) (drawBias : List ℤ) :
    Except String Module :=
  Except.ok (reset_parameters
    { max_char_len := cfg.max_char_len,
      char_embeddings := drawChar,
      symbol_embeddings := drawSym,
      char_inputs := cfg.char_inputs,
      convolutions := (cfg.filters.zip convDraws).map
        (fun fd => ⟨fd.1.1, fd.2.1, fd.2.2⟩),
      highway := hw,
      proj_weight := drawProj,
      proj_bias := drawBias,
      vocab_pad := vocab.padIdx,
      vocab_eos := vocab.eosIdx,
      vocab_unk := vocab.unkIdx,
      word_to_char := (set_vocab vocab cfg.max_char_len).1 }
    drawChar drawSym drawProj)

/-- A configuration whose only filter is wider (5) than `max_char_len` (3). -/
def badCfg : Config := ⟨[(5, 1)], 1, 1, 1, 3, true⟩

/-- A module as constructed from `badCfg`: a single width-5 filter against
`max_char_len = 3`, with the source's 257-row character table. -/
def cmBad : Module :=
  ⟨3, List.replicate 257 [0], [[7], [9]], true, [⟨5, [[[1]]], [0]⟩],
   fun x => x, [[2]], [3], 0, 1, 2, []⟩

/-- Claim C5 counterexample: `badCfg` has a filter width (5) exceeding
`max_char_len` (3), yet construction succeeds — `__init__` performs no
validation, so "fails fast at construction" is false. -/
theorem ctor_accepts_bad_width :
    badCfg.max_char_len < 5 ∧ (5, 1) ∈ badCfg.filters ∧
    ctorOk (initE badCfg ⟨[], 0, 0, 1, 2⟩ [([[[1]]], [0])] (fun x => x)
      [[1]] [[1], [1]] [[1]] [0]) = true :=
  ⟨by decide, by decide, rfl⟩

/-- Claim C5 (amended): construction never fails — for every configuration
(also one with a filter wider than `max_char_len`, or one whose filter bank
sums to a `final_dim` of zero) the constructor returns a module; the
invalid-width configuration fails only at composition time, where any
`_convolve` call on a module holding a filter wider than an input row
returns an error. -/
theorem ctor_no_validation :
    (∀ (cfg : Config) (vocab : Vocab) convDraws hw drawChar drawSym drawProj drawBias,
      ctorOk (initE cfg vocab convDraws hw drawChar drawSym drawProj drawBias) = true) ∧
    (∀ (m : Module) (chars : List (List Nat)) (j : Nat) (row : List Nat) (p : Conv1dP),
      chars[j]? = some row → p ∈ m.convolutions → row.length < p.width →
      convolve m chars = none) := by
  constructor
  · intro cfg vocab convDraws hw drawChar drawSym drawProj drawBias
    rfl
  · intro m chars j row p hrow hp hwidth
    unfold convolve
    cases h1 : mapO (fun r => mapO (fun c => m.char_embeddings[c]?) r) chars with
    | none => rfl
    | some charEmbs =>
      obtain ⟨embs, hembs, hce⟩ := mapO_get? h1 hrow
      have hlen : embs.length = row.length := mapO_length hembs
      have hfail : convFilter p embs = none := by
        unfold convFilter
        rw [if_neg]
        rintro ⟨-, h2⟩
        omega
      have hinner : mapO (fun q => convFilter q embs) m.convolutions = none :=
        mapO_none hp hfail
      have hmem : embs ∈ charEmbs := mem_of_getElem?_eq hce
      have houter :
          mapO (fun e => mapO (fun q => convFilter q e) m.convolutions) charEmbs = none :=
        mapO_none hmem hinner
      simp [houter]

/-- Claim C5 (amended) witness: construction on `badCfg` succeeds, and the
resulting width-5 filter fails in composition on a `max_char_len = 3` row. -/
theorem ctor_no_validation_witness :
    ctorOk (initE badCfg ⟨[], 0, 0, 1, 2⟩ [([[[1]]], [0])] (fun x => x)
      [[1]] [[1], [1]] [[1]] [0]) = true ∧
    convolve cmBad [[1, 1, 1]] = none :=
  ⟨ctor_no_validation.1 badCfg ⟨[], 0, 0, 1, 2⟩ [([[[1]]], [0])] (fun x => x)
      [[1]] [[1], [1]] [[1]] [0],
   ctor_no_validation.2 cmBad [[1, 1, 1]] 0 [1, 1, 1] ⟨5, [[[1]]], [0]⟩
     (by decide) (List.Mem.head _) (by decide)⟩

set_option maxRecDepth 8192 in
/-- Claim C6 counterexample: a raw-mode batch whose second row holds the
invalid code 300; the call does fail, but only inside composition — and the
caller's tensor has already been mutated (its eos row cleared), so the
failure is neither at the call boundary nor free of partial effects. -/
theorem forward_invalid_code_after_mutation :
    (forwardChars cmBad [[257, 1, 1], [300, 1, 1]]).1 = none ∧
    (forwardChars cmBad [[257, 1, 1], [300, 1, 1]]).2 ≠ [[257, 1, 1], [300, 1, 1]] :=
  ⟨by decide, by decide⟩

/-- Claim C6 (amended): a malformed input fails the call, but the failure
arises inside composition at the embedding lookup, not at the call
boundary: for any module with the source's 257-row character table, a raw
batch holding — after eos clearing — a code outside `0..256` yields an error
result, and the caller's tensor is left in its (possibly already mutated)
cleared state. -/
theorem forward_invalid_code_fails (m : Module) (input : List (List Nat))
    (j : Nat) (row : List Nat) (c : Nat)
    (htable : m.char_embeddings.length = 257)
    (hrow : (clearEos input)[j]? = some row) (hc : c ∈ row) (hbig : 256 < c) :
    (forwardChars m input).1 = none ∧
    (forwardChars m input).2 = clearEos input := by
  refine ⟨?_, rfl⟩
  unfold forwardChars
  dsimp only
  have hlook : m.char_embeddings[c]? = none := by
    rw [List.getElem?_eq_none_iff]
    omega
  have hrowfail : mapO (fun c => m.char_embeddings[c]?) row = none :=
    mapO_none hc hlook
  have houter :
      mapO (fun r => mapO (fun c => m.char_embeddings[c]?) r) (clearEos input) = none :=
    mapO_none (mem_of_getElem?_eq hrow) hrowfail
  simp [convolve, houter]

set_option maxRecDepth 8192 in
/-- Claim C6 (amended) witness. -/
theorem forward_invalid_code_fails_witness :
    (forwardChars cmBad [[257, 1, 1], [300, 1, 1]]).1 = none ∧
    (forwardChars cmBad [[257, 1, 1], [300, 1, 1]]).2 =
      clearEos [[257, 1, 1], [300, 1, 1]] :=
  forward_invalid_code_fails cmBad [[257, 1, 1], [300, 1, 1]] 1 [300, 1, 1] 300
    (by decide) (by decide) (by decide) (by decide)

end CharTokenEmbed
